import Mathlib

/-!
Shallow embedding of `dedoppelgaenger.py`: a perceptual-hash based
near-duplicate image finder.  The data model is

  * `Fingerprint n` — a fixed-width bit vector (`Fin n → Bool`), compared by
    Hamming distance (`imagehash.ImageHash`, whose subtraction counts
    differing bits);
  * `PyDict κ` — a Python dict from keys `κ` to sets of file paths,
    embedded as an insertion-ordered association list (Python dicts
    preserve insertion order); path sets become `Finset Path`.  The
    fingerprint-keyed `ImageHashTable` (backed by a `defaultdict(set)`) and
    the path-keyed `DoppelgaengerList` result are both instances;
  * the hashing pipeline (`hash_image` / `hash_images` / `load_hashes` /
    `collect_hashes`), with the external decode+phash collaborator modelled
    as an oracle `Path → Option (Fingerprint n)`;
  * the metric search engine (`find_doppelgaenger`), with the external
    `vptree` collaborator modelled from the spec as a vantage-point tree
    over the target fingerprints;
  * persisted index I/O (`json_encoder` / `handle_output` / `load_hashes`).
-/

namespace DeDoppelgaenger

/-- File paths (`pathlib.Path` values, already in normalized text form). -/
abbrev Path := String

/-- A fixed-width perceptual fingerprint: `imagehash.ImageHash` is a flat
boolean array; Hamming distance (`Mathlib`'s `hammingDist`) is the metric. -/
abbrev Fingerprint (n : ℕ) := Fin n → Bool

/-- `EPSILON = 0.01` from the source, as an exact rational (the float value
only matters through comparisons with integer distances, and any value in
`(0, 1)` behaves identically there). -/
def EPSILON : ℚ := 1 / 100

/-- A Python dict from `κ` to path sets, embedded as an insertion-ordered
association list of entries. -/
abbrev PyDict (κ : Type) := List (κ × Finset Path)

namespace PyDict

variable {κ : Type} [DecidableEq κ]

/-- The empty dict. -/
def empty (κ : Type) : PyDict κ := []

/-- Plain dict lookup, `None` when the key is absent. -/
def lookup? (t : PyDict κ) (k : κ) : Option (Finset Path) :=
  (t.find? (fun e => e.1 = k)).map Prod.snd

/-- The dict's key list (`.keys()`), in insertion order. -/
def keysList (t : PyDict κ) : List κ := t.map Prod.fst

/-- `__setitem__`: overwrite the value of an existing key in place, or
append a new entry (Python dicts keep the original position on update and
append fresh keys at the end). -/
def setEntry (t : PyDict κ) (k : κ) (v : Finset Path) : PyDict κ :=
  if (t.find? (fun e => e.1 = k)).isSome then
    t.map (fun e => if e.1 = k then (k, v) else e)
  else
    t ++ [(k, v)]

/-- `__getitem__` on a `defaultdict(set)` (the backing store of
`ImageHashTable`): return the stored set for a present key; for an absent
key, insert a fresh empty set and return it.  The returned pair is
(value read, dict after the read). -/
def getDefault (t : PyDict κ) (k : κ) : Finset Path × PyDict κ :=
  match t.lookup? k with
  | some v => (v, t)
  | none => (∅, t ++ [(k, ∅)])

/-- `table[k] |= v` (and `table[k].add(p)` with `v = {p}`): read with
default insertion, then replace the stored set by its union with `v` —
the in-place mutation of the stored set object. -/
def iorEntry (t : PyDict κ) (k : κ) (v : Finset Path) : PyDict κ :=
  ((t.getDefault k).2).setEntry k ((t.getDefault k).1 ∪ v)

/-- `ImageHashTable.update`: for every entry of `other`,
`self.__image_hashes[entry_hash] |= entry_files`. -/
def update (t other : PyDict κ) : PyDict κ :=
  other.foldl (fun acc e => acc.iorEntry e.1 e.2) t

/-- Two dicts have the same content: every key is mapped to the same path
set (or absent in both).  This is equality of the dict as a mapping,
ignoring insertion order. -/
def EquivContent (t₁ t₂ : PyDict κ) : Prop :=
  ∀ k, t₁.lookup? k = t₂.lookup? k

/-- The data-model invariant from the spec: no key maps to an empty path
set. -/
def NoEmptyValues (t : PyDict κ) : Prop :=
  ∀ e ∈ t, e.2 ≠ (∅ : Finset Path)

instance decEquivContent {n : ℕ} (t₁ t₂ : PyDict (Fingerprint n)) :
    Decidable (EquivContent t₁ t₂) := by
  unfold EquivContent; infer_instance

instance decNoEmptyValues (t : PyDict κ) : Decidable (NoEmptyValues t) := by
  unfold NoEmptyValues; infer_instance

end PyDict

/-- The `ImageHashTable` class: a `defaultdict(set)` from fingerprints to
the paths sharing that fingerprint. -/
abbrev ImageHashTable (n : ℕ) := PyDict (Fingerprint n)

/-- `DoppelgaengerList`: a plain dict from reference path to the set of
matched target paths. -/
abbrev DoppelgaengerList := PyDict Path

/-- `hash_image`, with the external decode + `imagehash.phash` collaborator
abstracted as an oracle `dec : Path → Option (Fingerprint n)` (`none` models
any exception while reading, decoding or hashing the file).  On success the
function returns `(fingerprint, path)`; on failure it prints one diagnostic
line `f"{path} - failed to read"` on stderr and returns `None`.  The second
component collects the stderr lines. -/
def hash_image {n : ℕ} (dec : Path → Option (Fingerprint n)) (p : Path) :
    Option (Fingerprint n × Path) × List String :=
  match dec p with
  | some h => (some (h, p), [])
  | none => (none, [p ++ " - failed to read"])

/-- `hash_images`: fold the worker results into the table.  `order` is the
list of input paths in the order their futures complete (`as_completed`
yields them in an arbitrary order; the fold itself runs single-threaded).
For each completed task, `if result: hashes[image_hash].add(path)`.
Returns the table and the accumulated stderr lines. -/
def hash_images {n : ℕ} (t : ImageHashTable n) (dec : Path → Option (Fingerprint n))
    (order : List Path) : ImageHashTable n × List String :=
  order.foldl
    (fun acc p =>
      match hash_image dec p with
      | (some (h, path), errs) => (acc.1.iorEntry h {path}, acc.2 ++ errs)
      | (none, errs) => (acc.1, acc.2 ++ errs))
    (t, [])

/-- One parsed JSON source for `load_hashes`: the decoded dict, each key the
fingerprint it denotes (hex text parsed by `imagehash.hex_to_hash`), each
value the list of path strings. -/
abbrev JsonIndex (n : ℕ) := List (Fingerprint n × List Path)

/-- `load_hashes`: for every key of the JSON dict,
`hashes[image_hash] = set(files_set)` — a plain overwriting assignment of
the freshly built path set. -/
def load_hashes {n : ℕ} (t : ImageHashTable n) (raw : JsonIndex n) :
    ImageHashTable n :=
  raw.foldl (fun acc e => acc.setEntry e.1 e.2.toFinset) t

/-- `collect_hashes`, after file classification: the JSON sources are loaded
first, in order, into a fresh table, then the image files are hashed into
it. -/
def collect_hashes {n : ℕ} (jsons : List (JsonIndex n))
    (dec : Path → Option (Fingerprint n)) (images : List Path) :
    ImageHashTable n :=
  (hash_images (jsons.foldl (fun acc j => load_hashes acc j)
    (PyDict.empty (Fingerprint n))) dec images).1

/-! ### The metric-tree collaborator

Modelled from the spec: the `vptree` library is an external collaborator,
not part of this repository.  Per the spec it is a vantage-point tree built
over a list of fingerprints with Hamming distance as the metric;
`range_query(tree, q, radius)` returns the list of `(distance, fingerprint)`
pairs whose distance to `q` is within `radius`.  Distances inside the tree
are kept as rationals (the library keeps them as floats; all values that
occur are integer Hamming distances plus the radius `D + 0.01`, which floats
represent exactly enough that every comparison below agrees with the
rational one). -/

/-- A vantage-point tree node: a pivot fingerprint, the split distance, the
subtree of points at distance `≤ mu` from the pivot and the subtree of
points at distance `> mu`. -/
inductive VPTree (n : ℕ) where
  | leaf : VPTree n
  | node (vp : Fingerprint n) (mu : ℕ) (near far : VPTree n) : VPTree n

namespace VPTree

/-- Median of the distances from the pivot to the remaining points — the
split distance.  (Range-query correctness is independent of how the split
distance is chosen.) -/
def median (l : List ℕ) : ℕ :=
  (l.mergeSort (fun a b => decide (a ≤ b))).getD (l.length / 2) 0

/-- The split distance used when `p` is the vantage point for `p :: rest`. -/
def splitRadius {n : ℕ} (p : Fingerprint n) (rest : List (Fingerprint n)) : ℕ :=
  median (rest.map (fun x => hammingDist p x))

/-- The points that go into the near subtree under pivot `p`. -/
def nearOf {n : ℕ} (p : Fingerprint n) (rest : List (Fingerprint n)) :
    List (Fingerprint n) :=
  rest.filter (fun x => hammingDist p x ≤ splitRadius p rest)

/-- The points that go into the far subtree under pivot `p`. -/
def farOf {n : ℕ} (p : Fingerprint n) (rest : List (Fingerprint n)) :
    List (Fingerprint n) :=
  rest.filter (fun x => splitRadius p rest < hammingDist p x)

/-- `VPTree(points, dist_fn)`: the first point becomes the vantage point,
the rest are split at the median distance. -/
def build {n : ℕ} : List (Fingerprint n) → VPTree n
  | [] => .leaf
  | p :: rest => .node p (splitRadius p rest) (build (nearOf p rest)) (build (farOf p rest))
termination_by l => l.length
decreasing_by
  · exact Nat.lt_succ_of_le (List.length_filter_le _ _)
  · exact Nat.lt_succ_of_le (List.length_filter_le _ _)

/-- `get_all_in_range(query, radius)`: collect every `(distance, point)`
pair within `radius` of the query, pruning a subtree whenever the triangle
inequality shows it cannot contain a point in range. -/
def rangeQuery {n : ℕ} : VPTree n → Fingerprint n → ℚ → List (ℚ × Fingerprint n)
  | .leaf, _, _ => []
  | .node vp mu near far, q, r =>
    (if ((hammingDist q vp : ℚ)) ≤ r then [((hammingDist q vp : ℚ), vp)] else []) ++
    (if ((hammingDist q vp : ℚ)) ≤ (mu : ℚ) + r then rangeQuery near q r else []) ++
    (if ((mu : ℚ)) < (hammingDist q vp : ℚ) + r then rangeQuery far q r else [])

end VPTree

/-- `find_doppelgaenger`: build a vantage-point tree over the target index's
keys, then for every reference entry run a range query with radius
`max_distance + EPSILON`; when there are matches, union the target path
sets of all matched fingerprints (each read through the target
`defaultdict`'s item access, whose possible insertion side effect is
threaded through the returned table) and assign that union to every
reference path of the entry (the Python `for` over the path set is
embedded as a fold over its sorted enumeration; all its assignments store
one and the same value).  Returns the result dict together with the final
state of the target table. -/
def find_doppelgaenger {n : ℕ} (reference_hashes target_hashes : ImageHashTable n)
    (max_distance : ℕ) : DoppelgaengerList × ImageHashTable n :=
  reference_hashes.foldl
    (fun acc e =>
      if ((VPTree.build target_hashes.keysList).rangeQuery e.1
          ((max_distance : ℚ) + EPSILON)) = [] then acc
      else
        (((e.2.sort (· ≤ ·)).foldl
            (fun d fp =>
              d.setEntry fp
                (((VPTree.build target_hashes.keysList).rangeQuery e.1
                    ((max_distance : ℚ) + EPSILON)).foldl
                  (fun (st : Finset Path × ImageHashTable n) m =>
                    (st.1 ∪ (st.2.getDefault m.2).1, (st.2.getDefault m.2).2))
                  ((∅ : Finset Path), acc.2)).1)
            acc.1),
          (((VPTree.build target_hashes.keysList).rangeQuery e.1
              ((max_distance : ℚ) + EPSILON)).foldl
            (fun (st : Finset Path × ImageHashTable n) m =>
              (st.1 ∪ (st.2.getDefault m.2).1, (st.2.getDefault m.2).2))
            ((∅ : Finset Path), acc.2)).2))
    (([] : DoppelgaengerList), target_hashes)

/-- The set of target fingerprints handed back by the metric search engine
for reference fingerprint `F` at threshold `D`: the range query with radius
`D + EPSILON` against the tree built over the target index's keys, keeping
the fingerprint of each `(distance, fingerprint)` pair. -/
def engineMatches {n : ℕ} (target : ImageHashTable n) (F : Fingerprint n)
    (D : ℕ) : List (Fingerprint n) :=
  ((VPTree.build target.keysList).rangeQuery F ((D : ℚ) + EPSILON)).map Prod.snd

/-- Brute force: every target fingerprint whose integer Hamming distance to
`F` is at most `D`. -/
def bruteForceMatches {n : ℕ} (target : ImageHashTable n) (F : Fingerprint n)
    (D : ℕ) : List (Fingerprint n) :=
  target.keysList.filter (fun x => hammingDist F x ≤ D)

/-- The matched-paths set for reference fingerprint `F`: the union of the
target-index path sets of all target fingerprints within distance `D`. -/
def matchedPaths {n : ℕ} (target : ImageHashTable n) (F : Fingerprint n)
    (D : ℕ) : Finset Path :=
  (bruteForceMatches target F D).foldl
    (fun s x => s ∪ (target.lookup? x).getD ∅) ∅

/-- `F` has at least one match in the target index at threshold `D`. -/
def HasMatch {n : ℕ} (target : ImageHashTable n) (F : Fingerprint n)
    (D : ℕ) : Prop :=
  ∃ x ∈ target.keysList, hammingDist F x ≤ D

/-- The pure content of one `hash_images` fold step, with the error stream
projected away: insert a successfully hashed file, skip a failure. -/
def hashStep {n : ℕ} (dec : Path → Option (Fingerprint n)) (tb : ImageHashTable n)
    (p : Path) : ImageHashTable n :=
  match dec p with
  | some h => tb.iorEntry h {p}
  | none => tb

/-- The table built by `hash_images`, as a fold of `hashStep`. -/
def foldHash {n : ℕ} (dec : Path → Option (Fingerprint n)) (t : ImageHashTable n)
    (order : List Path) : ImageHashTable n :=
  order.foldl (hashStep dec) t

/-- One step of the search engine's reference loop, rephrased through the
brute-force characterisation of the range query: skip a reference entry
with no match, otherwise assign the matched-paths union to each of its
reference paths. -/
def findStep {n : ℕ} (target : ImageHashTable n) (D : ℕ)
    (d : DoppelgaengerList) (e : Fingerprint n × Finset Path) : DoppelgaengerList :=
  if bruteForceMatches target e.1 D = [] then d
  else (e.2.sort (· ≤ ·)).foldl
    (fun d fp => d.setEntry fp (matchedPaths target e.1 D)) d

/-- The result dict of the search engine, rephrased as a pure fold of
`findStep` over the reference entries. -/
def findPure {n : ℕ} (ref target : ImageHashTable n) (D : ℕ) : DoppelgaengerList :=
  ref.foldl (findStep target D) []

/-! ### Persisted index I/O

Modelled from the spec: the fingerprint text form (`str(ImageHash)` on
write, `imagehash.hex_to_hash` on read) is an external collaborator — "a
stable, re-parseable encoding of the fixed-width bit vector, e.g.
hexadecimal"; it is modelled as the natural number the hex string denotes,
written via the bit values of the fingerprint and parsed back bit by bit. -/

/-- Value of a little-endian bit list as a natural number. -/
def bitsToNat : List Bool → ℕ
  | [] => 0
  | b :: bs => (if b then 1 else 0) + 2 * bitsToNat bs

/-- The `w` low-order bits of a natural number, little-endian. -/
def natToBits : ℕ → ℕ → List Bool
  | 0, _ => []
  | w + 1, m => decide (m % 2 = 1) :: natToBits w (m / 2)

/-- The numeric value the fingerprint's hex text denotes (`str(hash)`). -/
def fpToNat {n : ℕ} (f : Fingerprint n) : ℕ :=
  bitsToNat (List.ofFn f)

/-- Parsing the text form back into a bit vector (`hex_to_hash`). -/
def natToFp (n : ℕ) (m : ℕ) : Fingerprint n :=
  fun i => (natToBits n m).getD i false

/-- `json_encoder` + `handle_output` on an index: one JSON key per entry —
the fingerprint's text form — whose value is the entry's path set rendered
as a list (`list(set)` enumerates in unspecified order; modelled as the
sorted enumeration, which is one such order). -/
def save {n : ℕ} (t : ImageHashTable n) : List (ℕ × List Path) :=
  t.map (fun e => (fpToNat e.1, e.2.sort (· ≤ ·)))

/-- Parsing a saved JSON object back into `load_hashes`' input: each key is
parsed into a fingerprint, each value kept as the list of paths. -/
def parseSaved (n : ℕ) (raw : List (ℕ × List Path)) : JsonIndex n :=
  raw.map (fun e => (natToFp n e.1, e.2))

/-- A concrete width-1 fingerprint (`0` bit), used in concrete instances. -/
def fp0 : Fingerprint 1 := fun _ => false

/-- A concrete width-1 fingerprint (`1` bit), used in concrete instances. -/
def fp1 : Fingerprint 1 := fun _ => true


namespace VPTree

theorem mem_nearOf {n : ℕ} {p x : Fingerprint n} {rest : List (Fingerprint n)} :
    x ∈ nearOf p rest ↔ x ∈ rest ∧ hammingDist p x ≤ splitRadius p rest := by
  simp [nearOf]

theorem mem_farOf {n : ℕ} {p x : Fingerprint n} {rest : List (Fingerprint n)} :
    x ∈ farOf p rest ↔ x ∈ rest ∧ splitRadius p rest < hammingDist p x := by
  simp [farOf]

theorem nearOf_append_farOf_perm {n : ℕ} (p : Fingerprint n)
    (rest : List (Fingerprint n)) : (nearOf p rest ++ farOf p rest).Perm rest := by
  have h : farOf p rest =
      rest.filter (fun x => !(decide (hammingDist p x ≤ splitRadius p rest))) := by
    unfold farOf
    congr 1
    funext x
    by_cases hx : hammingDist p x ≤ splitRadius p rest
    · simp [hx, not_lt.mpr hx]
    · simp [hx, Nat.lt_of_not_le hx]
  rw [nearOf, h]
  exact List.filter_append_perm _ rest

theorem rangeQuery_build_aux {n : ℕ} (q : Fingerprint n) (r : ℚ) :
    ∀ (N : ℕ) (l : List (Fingerprint n)), l.length ≤ N →
      (((build l).rangeQuery q r).map Prod.snd).Perm
        (l.filter (fun x => decide ((hammingDist q x : ℚ) ≤ r))) := by
  intro N
  induction N with
  | zero =>
    intro l hl
    have hnil : l = [] := List.length_eq_zero.mp (Nat.le_zero.mp hl)
    subst hnil
    simp [build, rangeQuery]
  | succ N ih =>
    intro l hl
    match l with
    | [] => simp [build, rangeQuery]
    | p :: rest =>
      have hrest : rest.length ≤ N := by
        simp only [List.length_cons] at hl
        omega
      have hnear := ih (nearOf p rest)
        (le_trans (List.length_filter_le _ rest) hrest)
      have hfar := ih (farOf p rest)
        (le_trans (List.length_filter_le _ rest) hrest)
      simp only [build, rangeQuery, List.map_append]
      have hA : ((if (hammingDist q p : ℚ) ≤ (splitRadius p rest : ℚ) + r then
            (build (nearOf p rest)).rangeQuery q r else []).map Prod.snd).Perm
          ((nearOf p rest).filter (fun x => decide ((hammingDist q x : ℚ) ≤ r))) := by
        by_cases hc : (hammingDist q p : ℚ) ≤ (splitRadius p rest : ℚ) + r
        · simpa [hc] using hnear
        · have hnil :
              (nearOf p rest).filter (fun x => decide ((hammingDist q x : ℚ) ≤ r)) = [] := by
            rw [List.filter_eq_nil_iff]
            intro x hx hPx
            rw [mem_nearOf] at hx
            have h1 : (hammingDist q x : ℚ) ≤ r := of_decide_eq_true hPx
            have h2 : (hammingDist q p : ℚ) ≤
                (hammingDist q x : ℚ) + (hammingDist x p : ℚ) := by
              exact_mod_cast hammingDist_triangle q x p
            have h3 : (hammingDist x p : ℚ) ≤ (splitRadius p rest : ℚ) := by
              rw [hammingDist_comm]
              exact_mod_cast hx.2
            exact hc (by linarith)
          simp [hc, hnil]
      have hB : ((if (splitRadius p rest : ℚ) < (hammingDist q p : ℚ) + r then
            (build (farOf p rest)).rangeQuery q r else []).map Prod.snd).Perm
          ((farOf p rest).filter (fun x => decide ((hammingDist q x : ℚ) ≤ r))) := by
        by_cases hc : (splitRadius p rest : ℚ) < (hammingDist q p : ℚ) + r
        · simpa [hc] using hfar
        · have hnil :
              (farOf p rest).filter (fun x => decide ((hammingDist q x : ℚ) ≤ r)) = [] := by
            rw [List.filter_eq_nil_iff]
            intro x hx hPx
            rw [mem_farOf] at hx
            have h1 : (hammingDist q x : ℚ) ≤ r := of_decide_eq_true hPx
            have h2 : (hammingDist p x : ℚ) ≤
                (hammingDist p q : ℚ) + (hammingDist q x : ℚ) := by
              exact_mod_cast hammingDist_triangle p q x
            have h3 : (splitRadius p rest : ℚ) < (hammingDist p x : ℚ) := by
              exact_mod_cast hx.2
            have h4 : (hammingDist p q : ℚ) = (hammingDist q p : ℚ) := by
              rw [hammingDist_comm]
            rw [not_lt] at hc
            exact absurd (by linarith : (splitRadius p rest : ℚ) < (splitRadius p rest : ℚ))
              (lt_irrefl _)
          simp [hc, hnil]
      have hcomb := List.Perm.append_left
        ((if (hammingDist q p : ℚ) ≤ r then [((hammingDist q p : ℚ), p)] else []).map Prod.snd)
        (List.Perm.append hA hB)
      have hrest2 : (((nearOf p rest).filter (fun x => decide ((hammingDist q x : ℚ) ≤ r))) ++
          ((farOf p rest).filter (fun x => decide ((hammingDist q x : ℚ) ≤ r)))).Perm
          (rest.filter (fun x => decide ((hammingDist q x : ℚ) ≤ r))) := by
        rw [← List.filter_append]
        exact List.Perm.filter _ (nearOf_append_farOf_perm p rest)
      rw [List.append_assoc]
      refine hcomb.trans ?_
      refine (List.Perm.append_left _ hrest2).trans ?_
      by_cases hp : (hammingDist q p : ℚ) ≤ r
      · rw [List.filter_cons_of_pos (by simpa using hp)]
        simp [hp]
      · rw [List.filter_cons_of_neg (by simpa using hp)]
        simp [hp]

/-- Range-query correctness of the vantage-point tree: querying the tree
built over `l` with radius `r` returns, up to order, exactly the elements
of `l` whose Hamming distance to the query is at most `r`. -/
theorem rangeQuery_build_perm {n : ℕ} (q : Fingerprint n) (r : ℚ)
    (l : List (Fingerprint n)) :
    (((build l).rangeQuery q r).map Prod.snd).Perm
      (l.filter (fun x => decide ((hammingDist q x : ℚ) ≤ r))) :=
  rangeQuery_build_aux q r l.length l le_rfl

end VPTree

namespace PyDict

variable {κ : Type} [DecidableEq κ]

theorem find?_key_isSome_iff {t : PyDict κ} {k : κ} :
    (t.find? (fun e => e.1 = k)).isSome ↔ k ∈ t.keysList := by
  rw [List.find?_isSome]
  constructor
  · rintro ⟨e, he, hp⟩
    have h1 : e.1 = k := by simpa using hp
    exact h1 ▸ List.mem_map_of_mem _ he
  · intro hk
    rcases List.mem_map.mp hk with ⟨e, he, hek⟩
    exact ⟨e, he, by simpa using hek⟩

theorem lookup?_isSome_iff {t : PyDict κ} {k : κ} :
    (t.lookup? k).isSome ↔ k ∈ t.keysList := by
  unfold lookup?
  cases h : t.find? (fun e => e.1 = k) with
  | none =>
    have h2 := find?_key_isSome_iff (t := t) (k := k)
    rw [h] at h2
    simpa using h2
  | some e =>
    have h2 := find?_key_isSome_iff (t := t) (k := k)
    rw [h] at h2
    simpa using h2

theorem lookup?_eq_none_iff {t : PyDict κ} {k : κ} :
    t.lookup? k = none ↔ k ∉ t.keysList := by
  rw [← lookup?_isSome_iff, Option.isSome_iff_ne_none]
  tauto

theorem lookup?_setEntry (t : PyDict κ) (k k' : κ) (v : Finset Path) :
    lookup? (setEntry t k v) k' = if k' = k then some v else lookup? t k' := by
  unfold setEntry
  by_cases hs : (t.find? (fun e => e.1 = k)).isSome
  · rw [if_pos hs]
    unfold lookup?
    rw [List.find?_map]
    by_cases hk : k' = k
    · subst hk
      have hpred : ((fun e : κ × Finset Path => decide (e.1 = k')) ∘
          (fun e => if e.1 = k' then (k', v) else e)) =
          (fun e : κ × Finset Path => decide (e.1 = k')) := by
        funext e
        by_cases h1 : e.1 = k' <;> simp [h1]
      rw [hpred]
      cases h : t.find? (fun e => decide (e.1 = k')) with
      | none => rw [h] at hs; simp at hs
      | some e =>
        have he1 : e.1 = k' := by simpa using List.find?_some h
        simp [he1]
    · have hpred : ((fun e : κ × Finset Path => decide (e.1 = k')) ∘
          (fun e => if e.1 = k then (k, v) else e)) =
          (fun e : κ × Finset Path => decide (e.1 = k')) := by
        funext e
        have hne : ¬(k = k') := fun h => hk h.symm
        by_cases h1 : e.1 = k
        · simp [h1, hne]
        · simp [h1]
      rw [hpred]
      cases h : t.find? (fun e => decide (e.1 = k')) with
      | none => simp [hk]
      | some e =>
        have he1 : e.1 = k' := by simpa using List.find?_some h
        have hne : ¬(e.1 = k) := by rw [he1]; exact hk
        simp [hk, hne]
  · rw [if_neg hs]
    unfold lookup?
    rw [List.find?_append]
    by_cases hk : k' = k
    · subst hk
      rw [Option.not_isSome_iff_eq_none] at hs
      simp [hs]
    · have hne : ¬(k = k') := fun h => hk h.symm
      have hsingle : List.find? (fun e : κ × Finset Path => e.1 = k') [(k, v)] = none := by
        simp [hne]
      simp [hsingle, hk]

theorem getDefault_fst (t : PyDict κ) (k : κ) :
    (t.getDefault k).1 = (t.lookup? k).getD ∅ := by
  unfold getDefault
  cases h : t.lookup? k <;> simp

theorem getDefault_snd_of_isSome {t : PyDict κ} {k : κ}
    (h : (t.lookup? k).isSome) : (t.getDefault k).2 = t := by
  unfold getDefault
  cases hh : t.lookup? k with
  | none => rw [hh] at h; simp at h
  | some v => simp

theorem lookup?_getDefault_snd (t : PyDict κ) (k k' : κ) :
    lookup? (t.getDefault k).2 k' =
      if k' = k then some ((t.lookup? k).getD ∅) else t.lookup? k' := by
  unfold getDefault
  cases h : t.lookup? k with
  | some v =>
    by_cases hk : k' = k
    · subst hk
      simp [h]
    · simp [hk]
  | none =>
    by_cases hk : k' = k
    · subst hk
      have hf : t.find? (fun e => e.1 = k') = none := by
        unfold lookup? at h
        cases hf : t.find? (fun e => e.1 = k') with
        | none => rfl
        | some e => rw [hf] at h; simp at h
      unfold lookup?
      simp [List.find?_append, hf, h]
    · have hne : ¬(k = k') := fun hh => hk hh.symm
      have hsingle : List.find? (fun e : κ × Finset Path => e.1 = k') [(k, ∅)] = none := by
        simp [hne]
      unfold lookup?
      simp [List.find?_append, hsingle, hk]

theorem lookup?_iorEntry (t : PyDict κ) (k k' : κ) (v : Finset Path) :
    lookup? (t.iorEntry k v) k' =
      if k' = k then some ((t.lookup? k).getD ∅ ∪ v) else t.lookup? k' := by
  unfold iorEntry
  rw [lookup?_setEntry, getDefault_fst]
  by_cases hk : k' = k
  · simp [hk]
  · rw [if_neg hk, if_neg hk, lookup?_getDefault_snd, if_neg hk]

theorem mem_setEntry {t : PyDict κ} {k : κ} {v : Finset Path} {e' : κ × Finset Path}
    (h : e' ∈ setEntry t k v) : (e' ∈ t ∧ e'.1 ≠ k) ∨ e' = (k, v) := by
  unfold setEntry at h
  by_cases hs : (t.find? (fun e => e.1 = k)).isSome
  · rw [if_pos hs] at h
    rcases List.mem_map.mp h with ⟨e, he, hfe⟩
    by_cases h1 : e.1 = k
    · right
      rw [← hfe]
      simp [h1]
    · left
      rw [if_neg h1] at hfe
      exact hfe ▸ ⟨he, h1⟩
  · rw [if_neg hs] at h
    rcases List.mem_append.mp h with he | he
    · left
      refine ⟨he, ?_⟩
      intro hek
      rw [Option.not_isSome_iff_eq_none, List.find?_eq_none] at hs
      exact hs e' he (by simpa using hek)
    · right
      simpa using he

theorem mem_iorEntry {t : PyDict κ} {k : κ} {v : Finset Path} {e' : κ × Finset Path}
    (h : e' ∈ iorEntry t k v) :
    (e' ∈ t ∧ e'.1 ≠ k) ∨ e' = (k, (t.lookup? k).getD ∅ ∪ v) := by
  unfold iorEntry at h
  rcases mem_setEntry h with ⟨he, hne⟩ | he
  · unfold getDefault at he
    cases hh : t.lookup? k with
    | some v' =>
      rw [hh] at he
      exact Or.inl ⟨he, hne⟩
    | none =>
      rw [hh] at he
      rcases List.mem_append.mp he with h1 | h1
      · exact Or.inl ⟨h1, hne⟩
      · exact absurd (congrArg Prod.fst (List.mem_singleton.mp h1)) hne
  · rw [getDefault_fst] at he
    exact Or.inr he

theorem noEmptyValues_setEntry {t : PyDict κ} {k : κ} {v : Finset Path}
    (ht : NoEmptyValues t) (hv : v ≠ ∅) : NoEmptyValues (setEntry t k v) := by
  intro e' he'
  rcases mem_setEntry he' with ⟨hmem, _⟩ | heq
  · exact ht e' hmem
  · rw [heq]
    exact hv

theorem noEmptyValues_iorEntry {t : PyDict κ} {k : κ} {v : Finset Path}
    (ht : NoEmptyValues t) (hv : v ≠ ∅) : NoEmptyValues (iorEntry t k v) := by
  intro e' he'
  rcases mem_iorEntry he' with ⟨hmem, _⟩ | heq
  · exact ht e' hmem
  · rw [heq]
    intro hcontra
    exact hv (Finset.union_eq_empty.mp hcontra).2

theorem equivContent_refl (t : PyDict κ) : EquivContent t t := fun _ => rfl

theorem equivContent_trans {t₁ t₂ t₃ : PyDict κ} (h₁ : EquivContent t₁ t₂)
    (h₂ : EquivContent t₂ t₃) : EquivContent t₁ t₃ :=
  fun k => (h₁ k).trans (h₂ k)

theorem iorEntry_congr {t₁ t₂ : PyDict κ} (h : EquivContent t₁ t₂) (k : κ)
    (v : Finset Path) : EquivContent (iorEntry t₁ k v) (iorEntry t₂ k v) := by
  intro k'
  rw [lookup?_iorEntry, lookup?_iorEntry, h k, h k']

theorem iorEntry_comm (t : PyDict κ) (k₁ k₂ : κ) (v₁ v₂ : Finset Path) :
    EquivContent (iorEntry (iorEntry t k₁ v₁) k₂ v₂)
      (iorEntry (iorEntry t k₂ v₂) k₁ v₁) := by
  intro k'
  simp only [lookup?_iorEntry]
  by_cases h1 : k' = k₁ <;> by_cases h2 : k' = k₂
  · have h3 : k₂ = k₁ := h2 ▸ h1
    subst h3
    simp [h1, h2, Finset.union_right_comm, Finset.union_comm v₁ v₂]
  · have h4 : ¬(k₁ = k₂) := h1 ▸ h2
    have h5 : ¬(k₂ = k₁) := fun hh => h4 hh.symm
    simp [h1, h2, h4, h5]
  · have h4 : ¬(k₂ = k₁) := h2 ▸ h1
    have h5 : ¬(k₁ = k₂) := fun hh => h4 hh.symm
    simp [h1, h2, h4, h5]
  · simp [h1, h2]

theorem getDefault_of_none {t : PyDict κ} {k : κ} (h : t.lookup? k = none) :
    t.getDefault k = (∅, t ++ [(k, ∅)]) := by
  unfold getDefault
  rw [h]

omit [DecidableEq κ] in
theorem keysList_append (t₁ t₂ : PyDict κ) :
    keysList (t₁ ++ t₂) = keysList t₁ ++ keysList t₂ :=
  List.map_append _ _ _

theorem lookup?_foldl_setEntry_of_not_mem {fps : List κ} {v : Finset Path}
    {d : PyDict κ} {p : κ} (hp : p ∉ fps) :
    lookup? (fps.foldl (fun d fp => setEntry d fp v) d) p = lookup? d p := by
  induction fps generalizing d with
  | nil => rfl
  | cons fp fps ih =>
    rw [List.foldl_cons, ih (fun hh => hp (List.mem_cons_of_mem _ hh)),
      lookup?_setEntry, if_neg (fun hh : p = fp => hp (hh ▸ List.mem_cons_self _ _))]

theorem lookup?_foldl_setEntry_of_mem {fps : List κ} {v : Finset Path}
    {d : PyDict κ} {p : κ} (hp : p ∈ fps) :
    lookup? (fps.foldl (fun d fp => setEntry d fp v) d) p = some v := by
  induction fps generalizing d with
  | nil => cases hp
  | cons fp fps ih =>
    rw [List.foldl_cons]
    by_cases hmem : p ∈ fps
    · exact ih hmem
    · have hpf : p = fp := (List.mem_cons.mp hp).resolve_right hmem
      rw [lookup?_foldl_setEntry_of_not_mem hmem, lookup?_setEntry, if_pos hpf]

theorem update_cons (t : PyDict κ) (e : κ × Finset Path)
    (rest : PyDict κ) : update t (e :: rest) = update (t.iorEntry e.1 e.2) rest :=
  rfl

theorem lookup?_update_of_not_mem {t other : PyDict κ} {k : κ}
    (h : k ∉ other.keysList) : lookup? (update t other) k = lookup? t k := by
  induction other generalizing t with
  | nil => rfl
  | cons e rest ih =>
    have hne : ¬(k = e.1) := fun hh => h (by simp [keysList, hh])
    rw [update_cons, ih (fun hh => h (by simp [keysList] at hh ⊢; exact Or.inr hh)),
      lookup?_iorEntry, if_neg hne]

theorem lookup?_update_of_mem {t other : PyDict κ} (hnd : other.keysList.Nodup)
    {k : κ} {v : Finset Path} (hkv : (k, v) ∈ other) :
    lookup? (update t other) k = some ((lookup? t k).getD ∅ ∪ v) := by
  induction other generalizing t with
  | nil => cases hkv
  | cons e rest ih =>
    have hnd1 : e.1 ∉ keysList rest := by
      have := hnd
      simp only [keysList, List.map_cons, List.nodup_cons] at this
      exact this.1
    have hnd2 : (keysList rest).Nodup := by
      have := hnd
      simp only [keysList, List.map_cons, List.nodup_cons] at this
      exact this.2
    rw [update_cons]
    rcases List.mem_cons.mp hkv with heq | hmem
    · have hk1 : e.1 = k := by rw [← heq]
      have hk2 : e.2 = v := by rw [← heq]
      have hknotin : k ∉ keysList rest := hk1 ▸ hnd1
      rw [lookup?_update_of_not_mem hknotin, lookup?_iorEntry, hk1, hk2, if_pos rfl]
    · have hk : k ∈ keysList rest := by
        unfold keysList
        exact List.mem_map_of_mem Prod.fst hmem
      have hne : ¬(k = e.1) := fun hh => hnd1 (hh ▸ hk)
      rw [ih hnd2 hmem, lookup?_iorEntry, if_neg hne]

theorem noEmptyValues_update {t other : PyDict κ} (ht : NoEmptyValues t)
    (hother : NoEmptyValues other) : NoEmptyValues (update t other) := by
  induction other generalizing t with
  | nil => exact ht
  | cons e rest ih =>
    rw [update_cons]
    exact ih (noEmptyValues_iorEntry ht (hother e (List.mem_cons_self _ _)))
      (fun e' he' => hother e' (List.mem_cons_of_mem _ he'))

end PyDict

open PyDict

theorem hashStep_congr {n : ℕ} (dec : Path → Option (Fingerprint n))
    {t₁ t₂ : ImageHashTable n} (h : EquivContent t₁ t₂) (p : Path) :
    EquivContent (hashStep dec t₁ p) (hashStep dec t₂ p) := by
  unfold hashStep
  cases dec p with
  | some hsh => exact iorEntry_congr h _ _
  | none => exact h

theorem hashStep_comm {n : ℕ} (dec : Path → Option (Fingerprint n))
    (t : ImageHashTable n) (p q : Path) :
    EquivContent (hashStep dec (hashStep dec t p) q)
      (hashStep dec (hashStep dec t q) p) := by
  unfold hashStep
  cases dec p with
  | some hp =>
    cases dec q with
    | some hq => exact iorEntry_comm t hp hq {p} {q}
    | none => exact equivContent_refl _
  | none =>
    cases dec q with
    | some hq => exact equivContent_refl _
    | none => exact equivContent_refl _

theorem foldHash_cons {n : ℕ} (dec : Path → Option (Fingerprint n))
    (t : ImageHashTable n) (p : Path) (order : List Path) :
    foldHash dec t (p :: order) = foldHash dec (hashStep dec t p) order :=
  rfl

theorem foldHash_congr {n : ℕ} (dec : Path → Option (Fingerprint n)) :
    ∀ (l : List Path) {t₁ t₂ : ImageHashTable n}, EquivContent t₁ t₂ →
      EquivContent (foldHash dec t₁ l) (foldHash dec t₂ l) := by
  intro l
  induction l with
  | nil => intro t₁ t₂ h; exact h
  | cons p l ih =>
    intro t₁ t₂ h
    rw [foldHash_cons, foldHash_cons]
    exact ih (hashStep_congr dec h p)

theorem foldHash_perm {n : ℕ} (dec : Path → Option (Fingerprint n))
    {l₁ l₂ : List Path} (hp : l₁.Perm l₂) :
    ∀ {t₁ t₂ : ImageHashTable n}, EquivContent t₁ t₂ →
      EquivContent (foldHash dec t₁ l₁) (foldHash dec t₂ l₂) := by
  induction hp with
  | nil => intro t₁ t₂ h; exact h
  | cons x _ ih =>
    intro t₁ t₂ h
    rw [foldHash_cons, foldHash_cons]
    exact ih (hashStep_congr dec h x)
  | swap x y l =>
    intro t₁ t₂ h
    rw [foldHash_cons, foldHash_cons, foldHash_cons, foldHash_cons]
    refine foldHash_congr dec l ?_
    exact equivContent_trans (hashStep_comm dec t₁ y x)
      (hashStep_congr dec (hashStep_congr dec h x) y)
  | trans _ _ ih₁ ih₂ =>
    intro t₁ t₂ h
    exact equivContent_trans (ih₁ h) (ih₂ (equivContent_refl _))

theorem foldHash_filter_isSome {n : ℕ} (dec : Path → Option (Fingerprint n))
    (t : ImageHashTable n) (order : List Path) :
    foldHash dec t order = foldHash dec t (order.filter (fun p => (dec p).isSome)) := by
  induction order generalizing t with
  | nil => rfl
  | cons p order ih =>
    rw [foldHash_cons]
    cases hdec : dec p with
    | some hsh =>
      rw [List.filter_cons_of_pos (by simp [hdec]), foldHash_cons]
      exact ih _
    | none =>
      rw [List.filter_cons_of_neg (by simp [hdec])]
      have hstep : hashStep dec t p = t := by
        unfold hashStep
        rw [hdec]
      rw [hstep]
      exact ih t

theorem noEmptyValues_foldHash {n : ℕ} (dec : Path → Option (Fingerprint n))
    {t : ImageHashTable n} (order : List Path) (ht : NoEmptyValues t) :
    NoEmptyValues (foldHash dec t order) := by
  induction order generalizing t with
  | nil => exact ht
  | cons p order ih =>
    rw [foldHash_cons]
    refine ih ?_
    unfold hashStep
    cases dec p with
    | some hsh => exact noEmptyValues_iorEntry ht (Finset.singleton_ne_empty p)
    | none => exact ht

theorem hash_images_fst_eq {n : ℕ} (t : ImageHashTable n)
    (dec : Path → Option (Fingerprint n)) (order : List Path) :
    (hash_images t dec order).1 = foldHash dec t order := by
  suffices h : ∀ (order : List Path) (acc : ImageHashTable n × List String),
      (order.foldl
        (fun acc p =>
          match hash_image dec p with
          | (some (h, path), errs) => (acc.1.iorEntry h {path}, acc.2 ++ errs)
          | (none, errs) => (acc.1, acc.2 ++ errs))
        acc).1 = foldHash dec acc.1 order by
    exact h order (t, [])
  intro order
  induction order with
  | nil => intro acc; rfl
  | cons p order ih =>
    intro acc
    rw [List.foldl_cons, ih, foldHash_cons]
    congr 1
    unfold hash_image hashStep
    cases dec p <;> rfl

theorem hash_images_snd_eq {n : ℕ} (t : ImageHashTable n)
    (dec : Path → Option (Fingerprint n)) (order : List Path) :
    (hash_images t dec order).2 =
      (order.filter (fun p => (dec p).isNone)).map
        (fun p => p ++ " - failed to read") := by
  suffices h : ∀ (order : List Path) (acc : ImageHashTable n × List String),
      (order.foldl
        (fun acc p =>
          match hash_image dec p with
          | (some (h, path), errs) => (acc.1.iorEntry h {path}, acc.2 ++ errs)
          | (none, errs) => (acc.1, acc.2 ++ errs))
        acc).2 = acc.2 ++ (order.filter (fun p => (dec p).isNone)).map
          (fun p => p ++ " - failed to read") by
    have h2 := h order (t, [])
    unfold hash_images
    rw [h2]
    simp
  intro order
  induction order with
  | nil => intro acc; simp
  | cons p order ih =>
    intro acc
    rw [List.foldl_cons, ih]
    unfold hash_image
    cases hdec : dec p with
    | some hsh => simp [hdec]
    | none => simp [hdec]

theorem epsilon_le_iff (d D : ℕ) : ((d : ℚ) ≤ (D : ℚ) + EPSILON) ↔ d ≤ D := by
  unfold EPSILON
  constructor
  · intro h
    by_contra hc
    have h1 : D + 1 ≤ d := Nat.succ_le_of_lt (Nat.lt_of_not_le hc)
    have h2 : ((D : ℚ) + 1) ≤ (d : ℚ) := by exact_mod_cast h1
    linarith
  · intro h
    have h2 : (d : ℚ) ≤ (D : ℚ) := by exact_mod_cast h
    linarith

theorem filter_epsilon {n : ℕ} (F : Fingerprint n) (D : ℕ)
    (l : List (Fingerprint n)) :
    l.filter (fun x => decide ((hammingDist F x : ℚ) ≤ (D : ℚ) + EPSILON)) =
      l.filter (fun x => decide (hammingDist F x ≤ D)) := by
  congr 1
  funext x
  exact decide_eq_decide.mpr (epsilon_le_iff _ _)

/-- The fingerprints returned by the engine's range query are, up to order,
exactly the brute-force matches at integer threshold `D`. -/
theorem engineMatches_perm {n : ℕ} (target : ImageHashTable n)
    (F : Fingerprint n) (D : ℕ) :
    (engineMatches target F D).Perm (bruteForceMatches target F D) := by
  unfold engineMatches bruteForceMatches
  have h := VPTree.rangeQuery_build_perm F ((D : ℚ) + EPSILON) (keysList target)
  rw [filter_epsilon] at h
  exact h

theorem rangeQuery_eq_nil_iff {n : ℕ} (target : ImageHashTable n)
    (F : Fingerprint n) (D : ℕ) :
    ((VPTree.build (keysList target)).rangeQuery F ((D : ℚ) + EPSILON)) = [] ↔
      bruteForceMatches target F D = [] := by
  constructor
  · intro h
    have hperm := engineMatches_perm target F D
    unfold engineMatches at hperm
    rw [h] at hperm
    exact hperm.nil_eq.symm
  · intro h
    have hperm := engineMatches_perm target F D
    unfold engineMatches at hperm
    rw [h] at hperm
    have h2 := hperm.eq_nil
    rcases List.map_eq_nil_iff.mp h2 with h3
    exact h3

theorem hasMatch_iff_ne_nil {n : ℕ} (target : ImageHashTable n)
    (F : Fingerprint n) (D : ℕ) :
    HasMatch target F D ↔ bruteForceMatches target F D ≠ [] := by
  unfold HasMatch bruteForceMatches
  rw [Ne, List.filter_eq_nil_iff]
  push_neg
  simp

theorem foldl_union_perm {α β : Type} [DecidableEq β] (g : α → Finset β)
    {l₁ l₂ : List α} (h : l₁.Perm l₂) :
    ∀ init : Finset β, l₁.foldl (fun s x => s ∪ g x) init =
      l₂.foldl (fun s x => s ∪ g x) init := by
  induction h with
  | nil => intro init; rfl
  | cons x _ ih =>
    intro init
    rw [List.foldl_cons, List.foldl_cons, ih]
  | swap x y l =>
    intro init
    rw [List.foldl_cons, List.foldl_cons, List.foldl_cons, List.foldl_cons,
      Finset.union_right_comm]
  | trans _ _ ih₁ ih₂ =>
    intro init
    rw [ih₁, ih₂]

/-- Fold a pair-valued step whose second component is a fixed point `c`
for every element of the list: the fold splits into a fold on the first
component, with `c` returned unchanged. -/
theorem foldl_pair_fixed_mem {α β γ : Type _} (f : (β × γ) → α → (β × γ))
    (g : β → α → β) (c : γ) :
    ∀ (l : List α), (∀ a ∈ l, ∀ b, f (b, c) a = (g b a, c)) →
      ∀ b, l.foldl f (b, c) = (l.foldl g b, c) := by
  intro l
  induction l with
  | nil => intro _ b; rfl
  | cons a l ih =>
    intro hf b
    rw [List.foldl_cons, hf a (List.mem_cons_self _ _) b, List.foldl_cons]
    exact ih (fun a2 ha2 b2 => hf a2 (List.mem_cons_of_mem _ ha2) b2) _

theorem foldl_union_snd {α β γ : Type _} [DecidableEq γ] (g : β → Finset γ)
    (l : List (α × β)) :
    ∀ init : Finset γ, l.foldl (fun s m => s ∪ g m.2) init =
      (l.map Prod.snd).foldl (fun s x => s ∪ g x) init := by
  induction l with
  | nil => intro init; rfl
  | cons m l ih =>
    intro init
    rw [List.foldl_cons, List.map_cons, List.foldl_cons, ih]

/-- The union accumulated by the engine over its match list equals
`matchedPaths`. -/
theorem inner_value_eq {n : ℕ} (target : ImageHashTable n)
    (F : Fingerprint n) (D : ℕ) :
    ((VPTree.build (keysList target)).rangeQuery F ((D : ℚ) + EPSILON)).foldl
        (fun s m => s ∪ (lookup? target m.2).getD ∅) ∅
      = matchedPaths target F D := by
  unfold matchedPaths
  rw [foldl_union_snd (fun x => (lookup? target x).getD ∅)]
  exact foldl_union_perm _ (engineMatches_perm target F D) ∅

/-- `find_doppelgaenger` rephrased: the result dict is the pure fold
`findPure`, and the target table comes back exactly as it went in. -/
theorem find_doppelgaenger_eq {n : ℕ} (ref target : ImageHashTable n) (D : ℕ) :
    find_doppelgaenger ref target D = (findPure ref target D, target) := by
  unfold find_doppelgaenger findPure
  refine foldl_pair_fixed_mem _ (findStep target D) target ref ?_ []
  intro e _ b
  by_cases hm : ((VPTree.build (keysList target)).rangeQuery e.1
      ((D : ℚ) + EPSILON)) = []
  · have hbf := (rangeQuery_eq_nil_iff target e.1 D).mp hm
    simp [findStep, hm, hbf]
  · have hbf : bruteForceMatches target e.1 D ≠ [] := fun hc =>
      hm ((rangeQuery_eq_nil_iff target e.1 D).mpr hc)
    have hmem : ∀ m ∈ ((VPTree.build (keysList target)).rangeQuery e.1
        ((D : ℚ) + EPSILON)), m.2 ∈ keysList target := by
      intro m hm2
      have hperm := engineMatches_perm target e.1 D
      unfold engineMatches at hperm
      have hx : m.2 ∈ (((VPTree.build (keysList target)).rangeQuery e.1
          ((D : ℚ) + EPSILON)).map Prod.snd) := List.mem_map_of_mem _ hm2
      have hx2 := hperm.mem_iff.mp hx
      unfold bruteForceMatches at hx2
      exact (List.mem_filter.mp hx2).1
    have hinner := foldl_pair_fixed_mem
      (fun (st : Finset Path × ImageHashTable n) m =>
        (st.1 ∪ (st.2.getDefault m.2).1, (st.2.getDefault m.2).2))
      (fun s m => s ∪ (lookup? target m.2).getD ∅) target
      ((VPTree.build (keysList target)).rangeQuery e.1 ((D : ℚ) + EPSILON))
      (by
        intro m hm2 s
        show (s ∪ (getDefault target m.2).1, (getDefault target m.2).2) = _
        rw [getDefault_fst,
          getDefault_snd_of_isSome (lookup?_isSome_iff.mpr (hmem m hm2))])
      (∅ : Finset Path)
    show (if ((VPTree.build (keysList target)).rangeQuery e.1
        ((D : ℚ) + EPSILON)) = [] then (b, target) else _) = _
    rw [if_neg hm]
    unfold findStep
    rw [if_neg hbf]
    rw [hinner, inner_value_eq target e.1 D]

theorem findStep_lookup_of_not_mem {n : ℕ} {target : ImageHashTable n} {D : ℕ}
    {e : Fingerprint n × Finset Path} {p : Path} (hp : p ∉ e.2)
    (d : DoppelgaengerList) :
    lookup? (findStep target D d e) p = lookup? d p := by
  unfold findStep
  by_cases hbf : bruteForceMatches target e.1 D = []
  · rw [if_pos hbf]
  · rw [if_neg hbf]
    exact lookup?_foldl_setEntry_of_not_mem
      (fun hmem => hp ((Finset.mem_sort _).mp hmem))

/-- Reference entries that either have no match or do not contain `p`
leave the result's entry for `p` untouched. -/
theorem findPure_lookup_untouched {n : ℕ} {target : ImageHashTable n} {D : ℕ}
    {p : Path} :
    ∀ (l : List (Fingerprint n × Finset Path)),
      (∀ e ∈ l, HasMatch target e.1 D → p ∉ e.2) →
      ∀ d : DoppelgaengerList,
        lookup? (l.foldl (findStep target D) d) p = lookup? d p := by
  intro l
  induction l with
  | nil => intro _ d; rfl
  | cons e l ih =>
    intro h d
    rw [List.foldl_cons, ih (fun e2 he2 => h e2 (List.mem_cons_of_mem _ he2))]
    by_cases hbf : bruteForceMatches target e.1 D = []
    · unfold findStep
      rw [if_pos hbf]
    · have hmatch : HasMatch target e.1 D :=
        (hasMatch_iff_ne_nil target e.1 D).mpr hbf
      exact findStep_lookup_of_not_mem (h e (List.mem_cons_self _ _) hmatch) d

/-- With pairwise-disjoint reference path sets, the result maps each path
of a matched reference entry to that entry's matched-paths union. -/
theorem findPure_lookup_of_mem {n : ℕ} {target : ImageHashTable n} {D : ℕ} :
    ∀ (l : List (Fingerprint n × Finset Path)),
      l.Pairwise (fun e₁ e₂ => Disjoint e₁.2 e₂.2) →
      ∀ e ∈ l, HasMatch target e.1 D → ∀ p ∈ e.2, ∀ d : DoppelgaengerList,
        lookup? (l.foldl (findStep target D) d) p =
          some (matchedPaths target e.1 D) := by
  intro l
  induction l with
  | nil => intro _ e he; cases he
  | cons e₀ l ih =>
    intro hpw e he hmatch p hp d
    have hpw1 : ∀ e2 ∈ l, Disjoint e₀.2 e2.2 := (List.pairwise_cons.mp hpw).1
    have hpw2 := (List.pairwise_cons.mp hpw).2
    rw [List.foldl_cons]
    rcases List.mem_cons.mp he with heq | hmem
    · subst heq
      rw [findPure_lookup_untouched l
        (fun e2 he2 _ => Finset.disjoint_left.mp (hpw1 e2 he2) hp)]
      unfold findStep
      rw [if_neg ((hasMatch_iff_ne_nil target e.1 D).mp hmatch)]
      exact lookup?_foldl_setEntry_of_mem ((Finset.mem_sort _).mpr hp)
    · exact ih hpw2 e hmem hmatch p hp _

theorem findPure_empty_target {n : ℕ} (ref : ImageHashTable n) (D : ℕ) :
    findPure ref (PyDict.empty (Fingerprint n)) D = [] := by
  unfold findPure
  suffices h : ∀ (l : List (Fingerprint n × Finset Path)) (d : DoppelgaengerList),
      l.foldl (findStep (PyDict.empty (Fingerprint n)) D) d = d by
    exact h ref []
  intro l
  induction l with
  | nil => intro d; rfl
  | cons e l ih =>
    intro d
    rw [List.foldl_cons]
    have hstep : findStep (PyDict.empty (Fingerprint n)) D d e = d := by
      unfold findStep bruteForceMatches PyDict.keysList PyDict.empty
      simp
    rw [hstep, ih]

theorem load_hashes_cons {n : ℕ} (t : ImageHashTable n) (k : Fingerprint n)
    (files : List Path) (rest : JsonIndex n) :
    load_hashes t ((k, files) :: rest) =
      load_hashes (t.setEntry k files.toFinset) rest :=
  rfl

theorem setEntry_of_not_mem {κ : Type} [DecidableEq κ] {t : PyDict κ} {k : κ}
    (h : k ∉ keysList t) (v : Finset Path) : setEntry t k v = t ++ [(k, v)] := by
  unfold setEntry
  rw [if_neg (fun hs => h (find?_key_isSome_iff.mp hs))]

theorem noEmptyValues_load_hashes {n : ℕ} {t : ImageHashTable n}
    {raw : JsonIndex n} (ht : NoEmptyValues t)
    (hraw : ∀ e ∈ raw, e.2 ≠ ([] : List Path)) :
    NoEmptyValues (load_hashes t raw) := by
  induction raw generalizing t with
  | nil => exact ht
  | cons e rest ih =>
    rw [show load_hashes t (e :: rest) =
      load_hashes (t.setEntry e.1 e.2.toFinset) rest from rfl]
    refine ih (noEmptyValues_setEntry ht ?_)
      (fun e2 he2 => hraw e2 (List.mem_cons_of_mem _ he2))
    intro hc
    exact hraw e (List.mem_cons_self _ _) (List.toFinset_eq_empty_iff _ |>.mp hc)

theorem natToBits_bitsToNat : ∀ bs : List Bool, natToBits bs.length (bitsToNat bs) = bs := by
  intro bs
  induction bs with
  | nil => rfl
  | cons b bs ih =>
    show natToBits (bs.length + 1) (bitsToNat (b :: bs)) = b :: bs
    rw [show natToBits (bs.length + 1) (bitsToNat (b :: bs)) =
      (decide ((bitsToNat (b :: bs)) % 2 = 1)) ::
        natToBits bs.length ((bitsToNat (b :: bs)) / 2) from rfl]
    have hval : bitsToNat (b :: bs) = (if b then 1 else 0) + 2 * bitsToNat bs := rfl
    congr 1
    · cases b
      · have hval2 : bitsToNat (false :: bs) = 2 * bitsToNat bs := by
          simp [bitsToNat]
        have hmod : bitsToNat (false :: bs) % 2 = 0 := by
          rw [hval2]
          omega
        simp [hmod]
      · have hval2 : bitsToNat (true :: bs) = 1 + 2 * bitsToNat bs := by
          simp [bitsToNat]
        have hmod : bitsToNat (true :: bs) % 2 = 1 := by
          rw [hval2]
          omega
        simp [hmod]
    · have hdiv : (bitsToNat (b :: bs)) / 2 = bitsToNat bs := by
        cases b
        · have hval2 : bitsToNat (false :: bs) = 2 * bitsToNat bs := by
            simp [bitsToNat]
          rw [hval2]
          omega
        · have hval2 : bitsToNat (true :: bs) = 1 + 2 * bitsToNat bs := by
            simp [bitsToNat]
          rw [hval2]
          omega
      rw [hdiv, ih]

theorem natToFp_fpToNat {n : ℕ} (f : Fingerprint n) : natToFp n (fpToNat f) = f := by
  funext i
  unfold natToFp fpToNat
  have h : natToBits n (bitsToNat (List.ofFn f)) = List.ofFn f := by
    have h2 := natToBits_bitsToNat (List.ofFn f)
    rw [List.length_ofFn] at h2
    exact h2
  rw [h, List.getD_eq_getElem _ _ ((List.length_ofFn f).symm ▸ i.2)]
  simp

theorem save_load_aux {n : ℕ} :
    ∀ (t acc : ImageHashTable n), (keysList (acc ++ t)).Nodup →
      load_hashes acc (parseSaved n (save t)) = acc ++ t := by
  intro t
  induction t with
  | nil =>
    intro acc _
    simp [save, parseSaved, load_hashes]
  | cons e t ih =>
    intro acc h
    rw [show parseSaved n (save (e :: t)) =
      (natToFp n (fpToNat e.1), e.2.sort (· ≤ ·)) :: parseSaved n (save t) from rfl]
    rw [load_hashes_cons, natToFp_fpToNat, Finset.sort_toFinset]
    have hkeys : keysList (acc ++ e :: t) = keysList acc ++ e.1 :: keysList t := by
      simp [keysList]
    rw [hkeys] at h
    have hnotin : e.1 ∉ keysList acc := by
      intro hmem
      rcases List.nodup_append.mp h with ⟨-, -, hdisj⟩
      exact hdisj hmem (List.mem_cons_self _ _)
    rw [setEntry_of_not_mem hnotin]
    have hnd2 : (keysList ((acc ++ [(e.1, e.2)]) ++ t)).Nodup := by
      have : keysList ((acc ++ [(e.1, e.2)]) ++ t) =
          keysList acc ++ e.1 :: keysList t := by
        simp [keysList]
      rw [this]
      exact h
    rw [ih _ hnd2]
    simp


/-! ### Claim theorems -/

/-- Claim C1: for every reference fingerprint, target index and threshold
`D`, the fingerprints matched by the search engine (range query with radius
`D + 0.01` on the metric tree) are exactly the brute-force matches at
integer Hamming distance `≤ D`; in particular the epsilon tolerance never
admits a fingerprint whose true integer distance exceeds `D`. -/
theorem c1_range_query_exact {n : ℕ} (target : ImageHashTable n)
    (F : Fingerprint n) (D : ℕ) :
    (engineMatches target F D).Perm (bruteForceMatches target F D) ∧
      ∀ x ∈ engineMatches target F D, hammingDist F x ≤ D := by
  refine ⟨engineMatches_perm target F D, ?_⟩
  intro x hx
  have h2 := (engineMatches_perm target F D).mem_iff.mp hx
  unfold bruteForceMatches at h2
  simpa using (List.mem_filter.mp h2).2

/-- Witness for C1 at a concrete target index, query and threshold. -/
theorem c1_witness :
    (engineMatches [(fp0, ({"t"} : Finset Path))] fp1 1).Perm
      (bruteForceMatches [(fp0, ({"t"} : Finset Path))] fp1 1) ∧
    ∀ x ∈ engineMatches [(fp0, ({"t"} : Finset Path))] fp1 1,
      hammingDist fp1 x ≤ 1 :=
  c1_range_query_exact [(fp0, {"t"})] fp1 1

/-- Claim C2 counterexample: loading two JSON sources that share the
fingerprint `fp0` — first with path set `{"a"}`, then with `{"b"}` — leaves
`{"b"}`, not the union `{"a"} ∪ {"b"}`: `load_hashes` overwrites. -/
theorem c2_load_overwrites :
    lookup? (load_hashes (load_hashes (PyDict.empty (Fingerprint 1))
        [(fp0, ["a"])]) [(fp0, ["b"])]) fp0 = some ({"b"} : Finset Path) ∧
    ({"b"} : Finset Path) ≠ ({"a"} : Finset Path) ∪ {"b"} := by
  constructor
  · rfl
  · decide

/-- Claim C2 as amended: merging two indexes via `update` unions the path
sets of a shared fingerprint; but a JSON source loaded by `load_hashes`
overwrites the fingerprint's entry with exactly that source's path set,
discarding previously contributed paths. -/
theorem c2_union_or_overwrite {n : ℕ} :
    (∀ (t other : ImageHashTable n) (k : Fingerprint n) (v : Finset Path),
        (keysList other).Nodup → (k, v) ∈ other →
        lookup? (update t other) k = some ((lookup? t k).getD ∅ ∪ v)) ∧
    (∀ (t : ImageHashTable n) (k : Fingerprint n) (files : List Path),
        lookup? (load_hashes t [(k, files)]) k = some files.toFinset) := by
  constructor
  · intro t other k v hnd hkv
    exact lookup?_update_of_mem hnd hkv
  · intro t k files
    rw [show load_hashes t [(k, files)] = setEntry t k files.toFinset from rfl,
      lookup?_setEntry, if_pos rfl]

/-- Witness for the amended C2 at concrete indexes. -/
theorem c2_witness :
    lookup? (update [(fp0, ({"x"} : Finset Path))] [(fp0, ({"y"} : Finset Path))]) fp0
      = some ((lookup? [(fp0, ({"x"} : Finset Path))] fp0).getD ∅ ∪ {"y"}) ∧
    lookup? (load_hashes [(fp0, ({"x"} : Finset Path))] [(fp0, ["b"])]) fp0
      = some (["b"].toFinset) :=
  ⟨(@c2_union_or_overwrite 1).1 _ _ fp0 {"y"} (by decide) (by decide),
    (@c2_union_or_overwrite 1).2 _ fp0 ["b"]⟩

/-- Claim C3: with an empty target index the search engine returns an empty
result (and the target comes back empty as well); being a total function of
the embedding, no error is raised. -/
theorem c3_empty_target {n : ℕ} (ref : ImageHashTable n) (D : ℕ) :
    find_doppelgaenger ref (PyDict.empty (Fingerprint n)) D =
      (PyDict.empty Path, PyDict.empty (Fingerprint n)) := by
  rw [find_doppelgaenger_eq, findPure_empty_target]
  rfl

/-- Claim C4: in the assembly step, provided no path occurs under two
different reference fingerprints (paths are unique within an index), every
path of a reference entry with at least one match is mapped to the union of
the target path sets of all matched fingerprints, and a path appears in the
result only if some reference entry containing it has a match (zero-match
entries contribute nothing). -/
theorem c4_assembly {n : ℕ} (ref target : ImageHashTable n) (D : ℕ)
    (hdisj : ref.Pairwise (fun e₁ e₂ => Disjoint e₁.2 e₂.2)) :
    (∀ e ∈ ref, HasMatch target e.1 D → ∀ p ∈ e.2,
        lookup? (find_doppelgaenger ref target D).1 p =
          some (matchedPaths target e.1 D)) ∧
    (∀ p s, lookup? (find_doppelgaenger ref target D).1 p = some s →
        ∃ e ∈ ref, p ∈ e.2 ∧ HasMatch target e.1 D) := by
  have heq := find_doppelgaenger_eq ref target D
  constructor
  · intro e he hm p hp
    rw [heq]
    exact findPure_lookup_of_mem ref hdisj e he hm p hp []
  · intro p s hs
    by_contra hc
    push_neg at hc
    have h0 : ∀ e ∈ ref, HasMatch target e.1 D → p ∉ e.2 :=
      fun e he hm hp => hc e he hp hm
    rw [heq] at hs
    have hs2 : lookup? (ref.foldl (findStep target D) []) p = some s := hs
    rw [findPure_lookup_untouched ref h0] at hs2
    simp [PyDict.lookup?] at hs2

/-- Witness for C4 at a concrete pair of indexes. -/
theorem c4_witness :
    (∀ e ∈ ([(fp0, ({"r"} : Finset Path))] : ImageHashTable 1),
        HasMatch [(fp0, ({"t"} : Finset Path))] e.1 0 → ∀ p ∈ e.2,
        lookup? (find_doppelgaenger [(fp0, ({"r"} : Finset Path))]
            [(fp0, ({"t"} : Finset Path))] 0).1 p =
          some (matchedPaths [(fp0, ({"t"} : Finset Path))] e.1 0)) ∧
    (∀ p s, lookup? (find_doppelgaenger [(fp0, ({"r"} : Finset Path))]
          [(fp0, ({"t"} : Finset Path))] 0).1 p = some s →
        ∃ e ∈ ([(fp0, ({"r"} : Finset Path))] : ImageHashTable 1),
          p ∈ e.2 ∧ HasMatch [(fp0, ({"t"} : Finset Path))] e.1 0) :=
  c4_assembly [(fp0, {"r"})] [(fp0, {"t"})] 0 (by decide)

/-- Claim C5: a file whose decode/fingerprint step fails contributes
nothing to the index — the batch result equals the result of the batch
with the failing files removed — and every failing file is reported once,
with its path, on the error stream; the batch itself always completes. -/
theorem c5_failure_policy {n : ℕ} (t : ImageHashTable n)
    (dec : Path → Option (Fingerprint n)) (order : List Path) :
    (hash_images t dec order).1 =
      (hash_images t dec (order.filter (fun p => (dec p).isSome))).1 ∧
    (hash_images t dec order).2 =
      (order.filter (fun p => (dec p).isNone)).map
        (fun p => p ++ " - failed to read") := by
  constructor
  · rw [hash_images_fst_eq, hash_images_fst_eq, ← foldHash_filter_isSome]
  · exact hash_images_snd_eq t dec order

/-- Claim C6: saving an index (fingerprint text key, path list value) and
loading the saved JSON back into a fresh index reproduces the original
index exactly — same fingerprint keys, same path sets. -/
theorem c6_roundtrip {n : ℕ} (t : ImageHashTable n)
    (hnd : (keysList t).Nodup) :
    load_hashes (PyDict.empty (Fingerprint n)) (parseSaved n (save t)) = t := by
  have h := save_load_aux t (PyDict.empty (Fingerprint n)) (by simpa using hnd)
  simpa using h

/-- Witness for C6 at a concrete one-entry index. -/
theorem c6_witness :
    load_hashes (PyDict.empty (Fingerprint 1))
      (parseSaved 1 (save [(fp0, ({"a"} : Finset Path))])) =
      [(fp0, ({"a"} : Finset Path))] :=
  c6_roundtrip [(fp0, {"a"})] (by decide)

/-- Claim C7 counterexample: loading a JSON source that maps a fingerprint
to an empty path list produces an index entry with an empty path set,
violating the invariant. -/
theorem c7_load_empty_entry :
    ¬ NoEmptyValues (load_hashes (PyDict.empty (Fingerprint 1))
      [(fp0, ([] : List Path))]) := by
  decide

/-- Claim C7 as amended: inserting hashed files and merging two indexes
preserve the no-empty-path-set invariant, and loading persisted JSON
preserves it provided every path list in the JSON is non-empty. -/
theorem c7_invariant_preserved {n : ℕ} :
    (∀ (t : ImageHashTable n) (dec : Path → Option (Fingerprint n))
        (order : List Path),
        NoEmptyValues t → NoEmptyValues (hash_images t dec order).1) ∧
    (∀ t other : ImageHashTable n,
        NoEmptyValues t → NoEmptyValues other → NoEmptyValues (update t other)) ∧
    (∀ (t : ImageHashTable n) (raw : JsonIndex n),
        NoEmptyValues t → (∀ e ∈ raw, e.2 ≠ ([] : List Path)) →
        NoEmptyValues (load_hashes t raw)) := by
  refine ⟨?_, ?_, ?_⟩
  · intro t dec order ht
    rw [hash_images_fst_eq]
    exact noEmptyValues_foldHash dec order ht
  · intro t other ht hother
    exact noEmptyValues_update ht hother
  · intro t raw ht hraw
    exact noEmptyValues_load_hashes ht hraw

/-- Witness for the amended C7 at concrete inputs. -/
theorem c7_witness :
    NoEmptyValues (hash_images ([] : ImageHashTable 1)
      (fun _ => some fp0) ["a"]).1 ∧
    NoEmptyValues (update [(fp0, ({"x"} : Finset Path))]
      [(fp1, ({"y"} : Finset Path))]) ∧
    NoEmptyValues (load_hashes ([] : ImageHashTable 1) [(fp0, ["a"])]) :=
  ⟨(@c7_invariant_preserved 1).1 _ _ _ (by decide),
    (@c7_invariant_preserved 1).2.1 _ _ (by decide) (by decide),
    (@c7_invariant_preserved 1).2.2 _ _ (by decide) (by decide)⟩

/-- Claim C8: the index produced by the hashing pipeline has the same
content (same fingerprint keys, same path sets) for any two completion
orders of the worker tasks — in particular for the orders produced by any
two thread counts. -/
theorem c8_order_independent {n : ℕ} (t : ImageHashTable n)
    (dec : Path → Option (Fingerprint n)) {o₁ o₂ : List Path}
    (h : o₁.Perm o₂) :
    EquivContent (hash_images t dec o₁).1 (hash_images t dec o₂).1 := by
  rw [hash_images_fst_eq, hash_images_fst_eq]
  exact foldHash_perm dec h (equivContent_refl t)

/-- Witness for C8: two completion orders of the same two files. -/
theorem c8_witness :
    EquivContent
      (hash_images ([] : ImageHashTable 1)
        (fun p => some (fun _ => decide (p = "a"))) ["a", "b"]).1
      (hash_images ([] : ImageHashTable 1)
        (fun p => some (fun _ => decide (p = "a"))) ["b", "a"]).1 :=
  c8_order_independent _ _ (List.Perm.swap "b" "a" [])

/-- Claim C9: the search engine returns the target table exactly as it was
passed in (the reference table is only iterated, never written), so both
indexes are unchanged and the result is a fresh value. -/
theorem c9_target_unchanged {n : ℕ} (ref target : ImageHashTable n) (D : ℕ) :
    (find_doppelgaenger ref target D).2 = target := by
  rw [find_doppelgaenger_eq]

/-- Claim C10: reading an absent fingerprint through the `defaultdict`
item access returns an empty set and, as a side effect, inserts that
fingerprint with an empty path set — the key set of the index changes. -/
theorem c10_getitem_inserts {n : ℕ} (t : ImageHashTable n) (k : Fingerprint n)
    (h : lookup? t k = none) :
    (t.getDefault k).1 = ∅ ∧
    lookup? (t.getDefault k).2 k = some ∅ ∧
    k ∉ keysList t ∧
    keysList (t.getDefault k).2 = keysList t ++ [k] := by
  refine ⟨?_, ?_, ?_, ?_⟩
  · rw [getDefault_fst, h]
    rfl
  · rw [lookup?_getDefault_snd, if_pos rfl, h]
    rfl
  · exact lookup?_eq_none_iff.mp h
  · rw [getDefault_of_none h, keysList_append]
    rfl

/-- Witness for C10 on the empty index. -/
theorem c10_witness :
    (PyDict.getDefault ([] : ImageHashTable 1) fp0).1 = ∅ ∧
    lookup? (PyDict.getDefault ([] : ImageHashTable 1) fp0).2 fp0 = some ∅ ∧
    fp0 ∉ keysList ([] : ImageHashTable 1) ∧
    keysList (PyDict.getDefault ([] : ImageHashTable 1) fp0).2 =
      keysList ([] : ImageHashTable 1) ++ [fp0] :=
  c10_getitem_inserts [] fp0 (by decide)


end DeDoppelgaenger
